import Mathlib

/-!
Verification of the xdr-codec core (src/xdr-codec/src/lib.rs): a shallow
embedding of the `Pack` / `Unpack` trait implementations over pure byte
lists, together with proofs of the spec's testable properties.

Bytes are modelled as `Nat` values below 256; a byte sink is the list of
bytes written so far; a byte source is the list of bytes not yet read.
A `pack` call returns the bytes it wrote and the count it returns in Rust;
an `unpack` call returns the decoded value, the consumed count, and the
remaining input, or an `Error` (premature end of input is the byteorder
error, exactly as `byteorder`'s readers report it).
-/

namespace Xdr

/-- Byte number `k` of a natural number, counting from the least significant byte. -/
def byteAt (x k : Nat) : Nat := x / 256 ^ k % 256

/-- Big-endian 4-byte image of a 32-bit value, as written by `write_u32::<BigEndian>`. -/
def be32 (x : Nat) : List Nat := [byteAt x 3, byteAt x 2, byteAt x 1, byteAt x 0]

/-- Big-endian 8-byte image of a 64-bit value, as written by `write_u64::<BigEndian>`. -/
def be64 (x : Nat) : List Nat :=
  [byteAt x 7, byteAt x 6, byteAt x 5, byteAt x 4,
   byteAt x 3, byteAt x 2, byteAt x 1, byteAt x 0]

/-- Mirrors `enum Error` of lib.rs. `invalidUtf8` carries the rejected byte
vector, standing for the wrapped `FromUtf8Error` (which owns those bytes). -/
inductive Error where
  | byteorder
  | ioError
  | invalidUtf8 (bytes : List Nat)
  | invalidCase
  | invalidEnum
  | generic (msg : String)
deriving DecidableEq

/-- Values of the XDR types lib.rs implements `Pack`/`Unpack` for: the
integer scalars, bool, unit, usize, variable-length sequences (`Vec<T>` /
`[T]`), optional values, boxes, and strings (held as their UTF-8 bytes).
The two float types are outside the embedding. -/
inductive XdrVal where
  | vU8 (x : Nat)
  | vU32 (x : Nat)
  | vI32 (x : Int)
  | vU64 (x : Nat)
  | vI64 (x : Int)
  | vBool (b : Bool)
  | vUnit
  | vUsize (x : Nat)
  | vSeq (elems : List XdrVal)
  | vOpt (o : Option XdrVal)
  | vBox (v : XdrVal)
  | vStr (bytes : List Nat)

/-- The wire types, used to direct `unpack` (Rust selects the impl by type). -/
inductive Ty where
  | tU8
  | tU32
  | tI32
  | tU64
  | tI64
  | tBool
  | tUnit
  | tUsize
  | tSeq (elem : Ty)
  | tOpt (elem : Ty)
  | tBox (elem : Ty)
  | tStr
deriving DecidableEq

/-- Mirrors `fn padding(sz)` of lib.rs: `(4 - (sz % 4)) % 4`. -/
def padding (sz : Nat) : Nat := (4 - sz % 4) % 4

mutual

/-- Mirrors the `Pack` impls of lib.rs over a pure byte sink: the bytes
written and the byte count the call returns. A Rust `u8` is below 256, so
`x % 256` is the written byte itself for well-typed values. `usize` packs
as `(*self as u32)`, hence the `% 2 ^ 32`; a slice packs its length first
(via the `usize` impl), then its elements, then zero bytes up to a
multiple of 4; `str` packs `as_bytes()` through the slice impl. -/
def pack : XdrVal → List Nat × Nat
  | .vU8 x => ([x % 256], 1)
  | .vU32 x => (be32 x, 4)
  | .vI32 x => (be32 (x % (2 ^ 32 : Int)).toNat, 4)
  | .vU64 x => (be64 x, 8)
  | .vI64 x => (be64 (x % (2 ^ 64 : Int)).toNat, 8)
  | .vBool b => (be32 (if b then 1 else 0), 4)
  | .vUnit => ([], 0)
  | .vUsize x => (be32 (x % 2 ^ 32), 4)
  | .vSeq vs =>
      let l := packList vs
      let sz := 4 + l.2
      let p := padding sz
      (be32 (vs.length % 2 ^ 32) ++ l.1 ++ List.replicate p 0, sz + p)
  | .vOpt none => (be32 0, 4)
  | .vOpt (some v) =>
      let l := pack v
      (be32 1 ++ l.1, 4 + l.2)
  | .vBox v => pack v
  | .vStr bs =>
      let sz := 4 + bs.length
      let p := padding sz
      (be32 (bs.length % 2 ^ 32) ++ bs.map (· % 256) ++ List.replicate p 0, sz + p)

/-- The element loop shared by the slice `Pack` impl and `pack_array`:
elements in order, bytes concatenated, counts summed. -/
def packList : List XdrVal → List Nat × Nat
  | [] => ([], 0)
  | v :: vs =>
      let a := pack v
      let b := packList vs
      (a.1 ++ b.1, a.2 + b.2)

end

/-- Mirrors `pub fn pack_array` of lib.rs: each element in order with no
length field, then `padding(vsz)` zero bytes; returns `vsz + psz`. -/
def pack_array (vs : List XdrVal) : List Nat × Nat :=
  let l := packList vs
  let p := padding l.2
  (l.1 ++ List.replicate p 0, l.2 + p)

/-- Mirrors `read_u32::<BigEndian>` on a byte-list source: four bytes
assembled big-endian, or the byteorder premature-EOF error. -/
def read32 : List Nat → Except Error (Nat × List Nat)
  | b0 :: b1 :: b2 :: b3 :: rest =>
      .ok (((b0 * 256 + b1) * 256 + b2) * 256 + b3, rest)
  | _ => .error .byteorder

/-- Mirrors `read_u64::<BigEndian>`: eight bytes assembled big-endian. -/
def read64 : List Nat → Except Error (Nat × List Nat)
  | b0 :: b1 :: b2 :: b3 :: b4 :: b5 :: b6 :: b7 :: rest =>
      .ok (((((((b0 * 256 + b1) * 256 + b2) * 256 + b3) * 256 + b4) * 256
              + b5) * 256 + b6) * 256 + b7, rest)
  | _ => .error .byteorder

/-- Two's-complement reading of a 32-bit word, as `read_i32` interprets bytes. -/
def toSigned32 (w : Nat) : Int := if w < 2 ^ 31 then (w : Int) else (w : Int) - 2 ^ 32

/-- Two's-complement reading of a 64-bit word, as `read_i64` interprets bytes. -/
def toSigned64 (w : Nat) : Int := if w < 2 ^ 63 then (w : Int) else (w : Int) - 2 ^ 64

/-- Mirrors the padding loop of the `Vec<T>` `Unpack` impl: reads `n`
single bytes through the `u8` impl and discards their values, summing the
per-byte counts. -/
def unpackPad : Nat → List Nat → Except Error (Nat × List Nat)
  | 0, input => .ok (0, input)
  | _ + 1, [] => .error .byteorder
  | n + 1, _ :: rest => (unpackPad n rest).map fun r => (r.1 + 1, r.2)

/-- Byte payload of a list of decoded `u8` values (the `Vec<u8>` a `String`
decode builds before UTF-8 validation). -/
def bytesOf (vs : List XdrVal) : List Nat :=
  vs.map fun v => match v with | .vU8 b => b | _ => 0

/-- Continuation byte test of UTF-8: high bits `10`. -/
def isCont (b : Nat) : Bool := 128 ≤ b && b ≤ 191

/-- UTF-8 validity of a byte list, as `String::from_utf8` checks it
(RFC 3629: no overlongs, no surrogates, scalar values at most U+10FFFF). -/
def utf8Valid : List Nat → Bool
  | [] => true
  | b :: rest =>
    if b ≤ 127 then utf8Valid rest
    else
      match rest with
      | [] => false
      | c1 :: rest1 =>
        if 194 ≤ b && b ≤ 223 then isCont c1 && utf8Valid rest1
        else
          match rest1 with
          | [] => false
          | c2 :: rest2 =>
            if b = 224 then (160 ≤ c1 && c1 ≤ 191) && isCont c2 && utf8Valid rest2
            else if (225 ≤ b && b ≤ 236) || b = 238 || b = 239 then
              isCont c1 && isCont c2 && utf8Valid rest2
            else if b = 237 then (128 ≤ c1 && c1 ≤ 159) && isCont c2 && utf8Valid rest2
            else
              match rest2 with
              | [] => false
              | c3 :: rest3 =>
                if b = 240 then
                  (144 ≤ c1 && c1 ≤ 191) && isCont c2 && isCont c3 && utf8Valid rest3
                else if 241 ≤ b && b ≤ 243 then
                  isCont c1 && isCont c2 && isCont c3 && utf8Valid rest3
                else if b = 244 then
                  (128 ≤ c1 && c1 ≤ 143) && isCont c2 && isCont c3 && utf8Valid rest3
                else false

/-- Size measure on wire types, only used to justify termination of `unpack`. -/
def Ty.sz : Ty → Nat
  | .tSeq t => t.sz + 1
  | .tOpt t => t.sz + 1
  | .tBox t => t.sz + 1
  | .tStr => 2
  | _ => 1

mutual

/-- Mirrors the `Unpack` impls of lib.rs on a byte-list source: decoded
value, consumed count, remaining input. `bool` accepts only the words 0
and 1 (anything else is `InvalidEnum`); `usize` reads a `u32` and widens;
`Vec<T>` reads a length, that many elements, then the padding bytes;
`Option<T>` reads a bool discriminant and a payload only when it is true
(the discriminant decode is the bool impl, inlined here); `Box<T>`
forwards; `String` decodes a `Vec<u8>` and then validates UTF-8. -/
def unpack : Ty → List Nat → Except Error (XdrVal × Nat × List Nat)
  | .tU8, [] => .error .byteorder
  | .tU8, b :: rest => .ok (.vU8 b, 1, rest)
  | .tU32, input => (read32 input).map fun r => (.vU32 r.1, 4, r.2)
  | .tI32, input => (read32 input).map fun r => (.vI32 (toSigned32 r.1), 4, r.2)
  | .tU64, input => (read64 input).map fun r => (.vU64 r.1, 8, r.2)
  | .tI64, input => (read64 input).map fun r => (.vI64 (toSigned64 r.1), 8, r.2)
  | .tBool, input =>
      (read32 input).bind fun r =>
        match r.1 with
        | 0 => .ok (.vBool false, 4, r.2)
        | 1 => .ok (.vBool true, 4, r.2)
        | _ => .error .invalidEnum
  | .tUnit, input => .ok (.vUnit, 0, input)
  | .tUsize, input => (read32 input).map fun r => (.vUsize r.1, 4, r.2)
  | .tSeq t, input =>
      (read32 input).bind fun r =>
        (unpackElems t r.1 r.2).bind fun e =>
          let sz := 4 + e.2.1
          (unpackPad (padding sz) e.2.2).map fun p =>
            (.vSeq e.1, sz + p.1, p.2)
  | .tOpt t, input =>
      (read32 input).bind fun r =>
        match r.1 with
        | 0 => .ok (.vOpt none, 4, r.2)
        | 1 => (unpack t r.2).map fun o => (.vOpt (some o.1), 4 + o.2.1, o.2.2)
        | _ => .error .invalidEnum
  | .tBox t, input => (unpack t input).map fun o => (.vBox o.1, o.2.1, o.2.2)
  | .tStr, input =>
      (read32 input).bind fun r =>
        (unpackElems .tU8 r.1 r.2).bind fun e =>
          let sz := 4 + e.2.1
          (unpackPad (padding sz) e.2.2).bind fun p =>
            let bs := bytesOf e.1
            if utf8Valid bs then .ok (.vStr bs, sz + p.1, p.2)
            else .error (.invalidUtf8 bs)
termination_by t _ => (t.sz, 0)
decreasing_by all_goals (simp [Ty.sz]; omega)

/-- The element loop of the `Vec<T>` `Unpack` impl: `n` elements in order. -/
def unpackElems : Ty → Nat → List Nat → Except Error (List XdrVal × Nat × List Nat)
  | _, 0, input => .ok ([], 0, input)
  | t, n + 1, input =>
      (unpack t input).bind fun r =>
        (unpackElems t n r.2.2).map fun e =>
          (r.1 :: e.1, r.2.1 + e.2.1, e.2.2)
termination_by t n _ => (t.sz, n + 1)
decreasing_by all_goals (simp [Ty.sz]; omega)

end

mutual

/-- Typing of model values against wire types, embedding the Rust type
side conditions: a `u8` is below 256, a `u32` below `2 ^ 32`, `i32` within
the signed 32-bit range, `usize` below `2 ^ 64` (the 64-bit platform), a
`String`'s bytes are bytes and valid UTF-8. -/
def hasTy : XdrVal → Ty → Bool
  | .vU8 x, .tU8 => x < 256
  | .vU32 x, .tU32 => x < 2 ^ 32
  | .vI32 x, .tI32 => -(2 ^ 31) ≤ x && x < 2 ^ 31
  | .vU64 x, .tU64 => x < 2 ^ 64
  | .vI64 x, .tI64 => -(2 ^ 63) ≤ x && x < 2 ^ 63
  | .vBool _, .tBool => true
  | .vUnit, .tUnit => true
  | .vUsize x, .tUsize => x < 2 ^ 64
  | .vSeq vs, .tSeq t => hasTyList vs t
  | .vOpt none, .tOpt _ => true
  | .vOpt (some v), .tOpt t => hasTy v t
  | .vBox v, .tBox t => hasTy v t
  | .vStr bs, .tStr => bs.all (· < 256) && utf8Valid bs
  | _, _ => false

/-- Pointwise typing of a list of values. -/
def hasTyList : List XdrVal → Ty → Bool
  | [], _ => true
  | v :: vs, t => hasTy v t && hasTyList vs t

end

mutual

/-- Values all of whose usize components, sequence lengths, and string
lengths fit in 32 bits, so that packing truncates nothing. -/
def fits : XdrVal → Bool
  | .vUsize x => x < 2 ^ 32
  | .vSeq vs => vs.length < 2 ^ 32 && fitsList vs
  | .vOpt (some v) => fits v
  | .vBox v => fits v
  | .vStr bs => bs.length < 2 ^ 32
  | _ => true

/-- Pointwise `fits` on a list of values. -/
def fitsList : List XdrVal → Bool
  | [] => true
  | v :: vs => fits v && fitsList vs

end

/-- Values whose pack count is necessarily a multiple of 4: everything but
a bare u8 value, bare meaning at top level or reached only through the
present arm of an option or through a box (sequences, arrays and strings
pad themselves regardless of their element widths). -/
def alignedV : XdrVal → Bool
  | .vU8 _ => false
  | .vOpt (some v) => alignedV v
  | .vBox v => alignedV v
  | _ => true

/-! Helper lemmas. -/

theorem padding_lt (sz : Nat) : padding sz < 4 := by
  unfold padding; omega

theorem padding_total (sz : Nat) : (sz + padding sz) % 4 = 0 := by
  unfold padding; omega

theorem read32_be32 (x : Nat) (rest : List Nat) :
    read32 (be32 x ++ rest) = .ok (x % 2 ^ 32, rest) := by
  simp only [be32, byteAt, read32, List.cons_append, List.nil_append]
  norm_num
  omega

theorem read64_be64 (x : Nat) (rest : List Nat) :
    read64 (be64 x ++ rest) = .ok (x % 2 ^ 64, rest) := by
  simp only [be64, byteAt, read64, List.cons_append, List.nil_append]
  norm_num
  omega

theorem toSigned32_emod (x : Int) (h0 : -(2 ^ 31) ≤ x) (h1 : x < 2 ^ 31) :
    toSigned32 (x % (2 ^ 32 : Int)).toNat = x := by
  unfold toSigned32
  split <;> omega

theorem toSigned64_emod (x : Int) (h0 : -(2 ^ 63) ≤ x) (h1 : x < 2 ^ 63) :
    toSigned64 (x % (2 ^ 64 : Int)).toNat = x := by
  unfold toSigned64
  split <;> omega

theorem unpackPad_drop : ∀ (n : Nat) (input : List Nat), n ≤ input.length →
    unpackPad n input = .ok (n, input.drop n)
  | 0, input, _ => rfl
  | n + 1, [], h => by simp at h
  | n + 1, b :: rest, h => by
      have := unpackPad_drop n rest (by simpa using h)
      simp [unpackPad, this, Except.map]

theorem unpackElems_u8 : ∀ (bs rest : List Nat),
    unpackElems .tU8 bs.length (bs ++ rest) = .ok (bs.map .vU8, bs.length, rest)
  | [], rest => by simp [unpackElems]
  | b :: bs, rest => by
      have := unpackElems_u8 bs rest
      simp [unpackElems, unpack, this, Except.bind, Except.map]
      omega

theorem hasTyList_mem {vs : List XdrVal} {t : Ty} (h : hasTyList vs t = true)
    {v : XdrVal} (hv : v ∈ vs) : hasTy v t = true := by
  induction vs with
  | nil => cases hv
  | cons w ws ih =>
      simp [hasTyList] at h
      cases hv with
      | head => exact h.1
      | tail _ hv => exact ih h.2 hv

theorem fitsList_mem {vs : List XdrVal} (h : fitsList vs = true)
    {v : XdrVal} (hv : v ∈ vs) : fits v = true := by
  induction vs with
  | nil => cases hv
  | cons w ws ih =>
      simp [fitsList] at h
      cases hv with
      | head => exact h.1
      | tail _ hv => exact ih h.2 hv

theorem map_mod_self {bs : List Nat} (h : bs.all (· < 256) = true) :
    bs.map (· % 256) = bs := by
  induction bs with
  | nil => rfl
  | cons b bs ih =>
      simp at h
      simp [Nat.mod_eq_of_lt h.1, ih (by simpa using h.2)]

theorem bytesOf_map_vU8 (bs : List Nat) : bytesOf (bs.map .vU8) = bs := by
  induction bs with
  | nil => rfl
  | cons b bs ih => simp [bytesOf] at ih ⊢; exact ih

theorem unpackElems_append (t : Ty) : ∀ (vs : List XdrVal),
    (∀ v ∈ vs, ∀ rest, unpack t ((pack v).1 ++ rest) = .ok (v, (pack v).2, rest)) →
    ∀ rest, unpackElems t vs.length ((packList vs).1 ++ rest) =
      .ok (vs, (packList vs).2, rest)
  | [], _, rest => by simp [unpackElems, packList]
  | v :: vs, h, rest => by
      have hv := h v (List.mem_cons_self v vs)
      have hvs := unpackElems_append t vs (fun w hw => h w (List.mem_cons_of_mem v hw))
      simp only [packList, List.length_cons, List.append_assoc]
      simp [unpackElems, hv ((packList vs).1 ++ rest), hvs rest, Except.bind, Except.map]

/-- Round-trip at bounded size: decoding the bytes packed for a
well-typed value whose 32-bit-bounded components fit returns that value,
its pack count, and the untouched remainder of the stream. -/
theorem unpack_pack_aux : ∀ (n : Nat) (v : XdrVal), sizeOf v ≤ n →
    ∀ (t : Ty), hasTy v t = true → fits v = true →
    ∀ rest, unpack t ((pack v).1 ++ rest) = .ok (v, (pack v).2, rest) := by
  intro n
  induction n with
  | zero => intro v h; cases v <;> simp at h
  | succ n ih =>
    intro v hle t ht hf rest
    cases v with
    | vU8 x =>
        cases t <;> simp [hasTy] at ht
        simp [pack, unpack, Nat.mod_eq_of_lt ht]
    | vU32 x =>
        cases t <;> simp [hasTy] at ht
        simp [pack, unpack, read32_be32, Except.map, Nat.mod_eq_of_lt ht]
    | vI32 x =>
        cases t <;> simp [hasTy] at ht
        simp [pack, unpack, read32_be32, Except.map, toSigned32]
        split <;> omega
    | vU64 x =>
        cases t <;> simp [hasTy] at ht
        simp [pack, unpack, read64_be64, Except.map, Nat.mod_eq_of_lt ht]
    | vI64 x =>
        cases t <;> simp [hasTy] at ht
        simp [pack, unpack, read64_be64, Except.map, toSigned64]
        split <;> omega
    | vBool b =>
        cases t <;> simp [hasTy] at ht
        cases b <;> simp [pack, unpack, read32_be32, Except.bind]
    | vUnit =>
        cases t <;> simp [hasTy] at ht
        simp [pack, unpack]
    | vUsize x =>
        cases t <;> simp [hasTy] at ht
        simp [fits] at hf
        simp [pack, unpack, Nat.mod_eq_of_lt hf, read32_be32, Except.map]
    | vSeq vs =>
        cases t <;> simp [hasTy] at ht
        case tSeq te =>
        simp [fits] at hf
        have hsz : sizeOf vs ≤ n := by simp at hle; omega
        have helem : ∀ w ∈ vs, ∀ r, unpack te ((pack w).1 ++ r) = .ok (w, (pack w).2, r) := by
          intro w hw r
          exact ih w (le_of_lt (lt_of_lt_of_le (List.sizeOf_lt_of_mem hw) hsz)) te
            (hasTyList_mem ht hw) (fitsList_mem hf.2 hw) r
        have hmain := unpackElems_append te vs helem
          (List.replicate (padding (4 + (packList vs).2)) 0 ++ rest)
        have hlen : vs.length % 2 ^ 32 = vs.length := Nat.mod_eq_of_lt (by omega)
        simp only [pack, unpack, List.append_assoc, hlen]
        rw [read32_be32]
        simp only [hlen, Except.bind, hmain]
        rw [unpackPad_drop _ _ (by simp), List.drop_left' (by simp)]
        simp [Except.map]
    | vOpt o =>
        cases o with
        | none =>
            cases t <;> simp [hasTy] at ht
            simp [pack, unpack, read32_be32, Except.bind]
        | some w =>
            cases t <;> simp [hasTy] at ht
            case tOpt te =>
            simp [fits] at hf
            have hsz : sizeOf w ≤ n := by simp at hle; omega
            have hw := ih w hsz te ht hf rest
            simp only [pack, unpack, List.append_assoc]
            rw [read32_be32]
            simp only [Except.bind]
            simp [hw, Except.map]
    | vBox w =>
        cases t <;> simp [hasTy] at ht
        case tBox te =>
        simp [fits] at hf
        have hsz : sizeOf w ≤ n := by simp at hle; omega
        have hw := ih w hsz te ht hf rest
        simp [pack, unpack, hw, Except.map]
    | vStr bs =>
        cases t <;> simp [hasTy] at ht
        simp [fits] at hf
        have hbytes : bs.map (· % 256) = bs := map_mod_self (by simpa using ht.1)
        have hmain := unpackElems_u8 bs
          (List.replicate (padding (4 + bs.length)) 0 ++ rest)
        have hlen : bs.length % 2 ^ 32 = bs.length := Nat.mod_eq_of_lt (by omega)
        simp only [pack, unpack, List.append_assoc, hlen, hbytes]
        rw [read32_be32]
        simp only [hlen, Except.bind, hmain]
        rw [unpackPad_drop _ _ (by simp), List.drop_left' (by simp)]
        simp [Except.bind, bytesOf_map_vU8, ht.2]

/-- Characterization of the bool decoder by the word it reads. -/
theorem unpack_tBool_eq (input : List Nat) :
    unpack .tBool input = (read32 input).bind fun r =>
      if r.1 = 0 then .ok (.vBool false, 4, r.2)
      else if r.1 = 1 then .ok (.vBool true, 4, r.2)
      else .error .invalidEnum := by
  simp only [unpack]
  cases hr : read32 input with
  | error e => simp [Except.bind]
  | ok r =>
      rcases r with ⟨w, rest⟩
      match w with
      | 0 => simp [Except.bind]
      | 1 => simp [Except.bind]
      | n + 2 => simp [Except.bind]

/-- Alignment of every pack count for values in the alignedV class, by
structural recursion (sequences and strings are aligned by their own
padding, scalars by their widths, option and box by their payload). -/
theorem pack_aligned : ∀ (v : XdrVal), alignedV v = true → (pack v).2 % 4 = 0
  | .vU8 _, h => by simp [alignedV] at h
  | .vU32 _, _ => by simp [pack]
  | .vI32 _, _ => by simp [pack]
  | .vU64 _, _ => by simp [pack]
  | .vI64 _, _ => by simp [pack]
  | .vBool _, _ => by simp [pack]
  | .vUnit, _ => by simp [pack]
  | .vUsize _, _ => by simp [pack]
  | .vSeq vs, _ => by
      have := padding_total (4 + (packList vs).2)
      simp [pack]; omega
  | .vOpt none, _ => by simp [pack]
  | .vOpt (some v), h => by
      have := pack_aligned v (by simpa [alignedV] using h)
      simp [pack]; omega
  | .vBox v, h => by
      have := pack_aligned v (by simpa [alignedV] using h)
      simpa [pack] using this
  | .vStr bs, _ => by
      have := padding_total (4 + bs.length)
      simp [pack]; omega

/-- C1, counterexample: the round-trip law as stated fails on the code.
The usize value 4294967296 is a well-typed usize on a 64-bit platform, yet
packing writes the 4 zero bytes of its low 32 bits and decoding them
yields 0, not the packed value. -/
theorem C1_counterexample :
    hasTy (.vUsize 4294967296) .tUsize = true ∧
    pack (.vUsize 4294967296) = ([0, 0, 0, 0], 4) ∧
    unpack .tUsize ((pack (.vUsize 4294967296)).1 ++ []) = .ok (.vUsize 0, 4, []) ∧
    XdrVal.vUsize 0 ≠ XdrVal.vUsize 4294967296 := by
  refine ⟨by decide, by decide, ?_, by simp⟩
  simp [pack, unpack, read32, be32, byteAt, Except.map]

/-- C1, amended: for every supported type and every well-typed value whose
usize components, sequence lengths and string lengths fit in 32 bits,
unpacking the bytes produced by packing yields the same value and a
consumed count equal to the count the pack call returned (the remainder of
the stream is untouched). -/
theorem C1_roundtrip (v : XdrVal) (t : Ty) (ht : hasTy v t = true)
    (hf : fits v = true) (rest : List Nat) :
    unpack t ((pack v).1 ++ rest) = .ok (v, (pack v).2, rest) :=
  unpack_pack_aux (sizeOf v) v le_rfl t ht hf rest

/-- C1, witness: the round trip on the nested composite of the spec,
a sequence of optional 64-bit integers [present 5, absent, present 9]. -/
theorem C1_roundtrip_witness :
    unpack (.tSeq (.tOpt .tU64))
        ((pack (.vSeq [.vOpt (some (.vU64 5)), .vOpt none, .vOpt (some (.vU64 9))])).1 ++ []) =
      .ok (.vSeq [.vOpt (some (.vU64 5)), .vOpt none, .vOpt (some (.vU64 9))],
           (pack (.vSeq [.vOpt (some (.vU64 5)), .vOpt none, .vOpt (some (.vU64 9))])).2, []) :=
  C1_roundtrip _ _ (by simp [hasTy, hasTyList]) (by simp [fits, fitsList]) []

/-- C2, counterexample: the u8 impl of the encode contract returns count 1
from a successful pack call, and 1 is not a multiple of 4. -/
theorem C2_counterexample : (pack (.vU8 0)).2 = 1 ∧ (1 : Nat) % 4 ≠ 0 := by decide

/-- C2, amended: for every successful pack call on a value other than a
bare u8 (bare also through option presence or box indirection), the
returned byte count is a multiple of 4; the u8 impl itself returns 1. -/
theorem C2_aligned (v : XdrVal) (h : alignedV v = true) : (pack v).2 % 4 = 0 :=
  pack_aligned v h

/-- C2, witness: a present optional u32 packs to a 4-multiple count. -/
theorem C2_aligned_witness :
    alignedV (.vOpt (some (.vU32 7))) = true ∧ (pack (.vOpt (some (.vU32 7)))).2 % 4 = 0 :=
  ⟨by decide, C2_aligned _ (by decide)⟩

/-- C3: packing a usize value writes exactly the 4-byte big-endian image
of the value truncated to 32 bits and returns count 4; unpacking reads a
u32 and widens it, so it returns the truncated value, which for any value
of at least 2 ^ 32 differs from the value packed. -/
theorem C3_usize (x : Nat) (hx : x < 2 ^ 64) :
    pack (.vUsize x) = (be32 (x % 2 ^ 32), 4) ∧
    (∀ rest, unpack .tUsize ((pack (.vUsize x)).1 ++ rest) =
      .ok (.vUsize (x % 2 ^ 32), 4, rest)) ∧
    (2 ^ 32 ≤ x → XdrVal.vUsize (x % 2 ^ 32) ≠ .vUsize x) := by
  refine ⟨rfl, ?_, ?_⟩
  · intro rest
    simp [pack, unpack, read32_be32, Except.map, Nat.mod_mod_of_dvd]
  · intro h
    simp only [ne_eq, XdrVal.vUsize.injEq]
    omega

/-- C3, witness: usize 4294967297 decodes back as 1 after packing. -/
theorem C3_usize_witness :
    unpack .tUsize ((pack (.vUsize 4294967297)).1 ++ []) = .ok (.vUsize 1, 4, []) ∧
    XdrVal.vUsize 1 ≠ .vUsize 4294967297 := by
  have h := C3_usize 4294967297 (by norm_num)
  refine ⟨?_, ?_⟩
  · have := h.2.1 []
    norm_num at this ⊢
    exact this
  · norm_num

/-- C4, counterexample: pack_array on the one-element u8 array writes 3
padding bytes, so the total count 4 is not the sum 1 of the element
encodings' sizes. -/
theorem C4_counterexample :
    (packList [XdrVal.vU8 1]).2 = 1 ∧
    pack_array [XdrVal.vU8 1] = ([1, 0, 0, 0], 4) ∧ (4 : Nat) ≠ 1 := by decide

/-- C4, amended: a fixed-length sequence encodes as the element encodings
in order with no count field, followed by zero padding up to a multiple of
4; whenever the element sizes already sum to a multiple of 4 (as for all
4-aligned element types) no padding is written and the total equals the
sum of the element encodings' sizes. -/
theorem C4_fixed_array (vs : List XdrVal) :
    (pack_array vs).1 = (packList vs).1 ++ List.replicate (padding (packList vs).2) 0 ∧
    (pack_array vs).2 = (packList vs).2 + padding (packList vs).2 ∧
    ((packList vs).2 % 4 = 0 →
      (pack_array vs).1 = (packList vs).1 ∧ (pack_array vs).2 = (packList vs).2) := by
  refine ⟨rfl, rfl, fun h => ?_⟩
  have hp : padding (packList vs).2 = 0 := by unfold padding; omega
  simp [pack_array, hp]

/-- C4, witness: the one-element u32 array needs no padding and its total
is the element sum. -/
theorem C4_fixed_array_witness :
    (pack_array [XdrVal.vU32 6]).1 = (packList [XdrVal.vU32 6]).1 ∧
    (pack_array [XdrVal.vU32 6]).2 = (packList [XdrVal.vU32 6]).2 :=
  (C4_fixed_array [XdrVal.vU32 6]).2.2 (by decide)

/-- C5: pack_array encodes the elements in order with no length field,
then writes between 0 and 3 zero bytes bringing the total to a multiple of
4, and returns the element byte sum plus the padding written. -/
theorem C5_pack_array (vs : List XdrVal) :
    (pack_array vs).1 = (packList vs).1 ++ List.replicate (padding (packList vs).2) 0 ∧
    padding (packList vs).2 ≤ 3 ∧
    (pack_array vs).2 = (packList vs).2 + padding (packList vs).2 ∧
    (pack_array vs).2 % 4 = 0 := by
  refine ⟨rfl, ?_, rfl, ?_⟩
  · have := padding_lt (packList vs).2; omega
  · have := padding_total (packList vs).2
    simp [pack_array]; omega

/-- C6: decoding the 4-byte big-endian word 2 as a bool is the
invalid-enum error; 0 decodes to false and 1 to true, each consuming 4
bytes; and any word other than 0 and 1 is the invalid-enum error, never a
coerced boolean. -/
theorem C6_bool_decode (b0 b1 b2 b3 : Nat) (rest : List Nat) :
    unpack .tBool ([0, 0, 0, 2] ++ rest) = .error .invalidEnum ∧
    unpack .tBool ([0, 0, 0, 0] ++ rest) = .ok (.vBool false, 4, rest) ∧
    unpack .tBool ([0, 0, 0, 1] ++ rest) = .ok (.vBool true, 4, rest) ∧
    (((b0 * 256 + b1) * 256 + b2) * 256 + b3 ≠ 0 →
      ((b0 * 256 + b1) * 256 + b2) * 256 + b3 ≠ 1 →
      unpack .tBool (b0 :: b1 :: b2 :: b3 :: rest) = .error .invalidEnum) := by
  refine ⟨?_, ?_, ?_, fun h0 h1 => ?_⟩
  · simp [unpack, read32, Except.bind]
  · simp [unpack, read32, Except.bind]
  · simp [unpack, read32, Except.bind]
  · rw [unpack_tBool_eq]
    simp [read32, Except.bind, h0, h1]

/-- C6, witness: the word with bytes 1,2,3,4 is neither 0 nor 1 and
decodes to the invalid-enum error. -/
theorem C6_bool_decode_witness :
    unpack .tBool [1, 2, 3, 4] = .error .invalidEnum :=
  (C6_bool_decode 1 2 3 4 []).2.2.2 (by decide) (by decide)

/-- C7: packing an absent optional writes exactly the four zero bytes of
the false discriminant and returns count 4; decoding them yields the
absent value, consumes exactly 4 bytes, and reads no payload whatever the
payload type (the rest of the stream is returned untouched). -/
theorem C7_option_none (t : Ty) (rest : List Nat) :
    pack (.vOpt none) = ([0, 0, 0, 0], 4) ∧
    unpack (.tOpt t) ([0, 0, 0, 0] ++ rest) = .ok (.vOpt none, 4, rest) := by
  refine ⟨by decide, ?_⟩
  simp [unpack, read32, Except.bind]

/-- C8: whenever the underlying byte-sequence decode of a String succeeds
but its payload is not valid UTF-8, the String decode fails with the
invalid-UTF-8 error carrying those bytes, and returns no value. -/
theorem C8_string_utf8 (input : List Nat) (vs : List XdrVal) (sz : Nat) (rest : List Nat)
    (h : unpack (.tSeq .tU8) input = .ok (.vSeq vs, sz, rest))
    (hbad : utf8Valid (bytesOf vs) = false) :
    unpack .tStr input = .error (.invalidUtf8 (bytesOf vs)) := by
  simp only [unpack] at h ⊢
  cases hr : read32 input with
  | error e => rw [hr] at h; simp [Except.bind] at h
  | ok r =>
      rw [hr] at h
      simp only [Except.bind] at h ⊢
      cases he : unpackElems .tU8 r.1 r.2 with
      | error e => rw [he] at h; simp at h
      | ok e =>
          rw [he] at h
          simp only at h ⊢
          cases hp : unpackPad (padding (4 + e.2.1)) e.2.2 with
          | error e2 => rw [hp] at h; simp [Except.map] at h
          | ok p =>
              rw [hp] at h
              simp only [Except.map] at h
              cases h
              simp [hbad]

/-- C8, witness: the length-1 payload 255 is not UTF-8, and the String
decode of its stream fails with the invalid-UTF-8 error. -/
theorem C8_string_utf8_witness :
    unpack .tStr [0, 0, 0, 1, 255, 0, 0, 0] = .error (.invalidUtf8 [255]) := by
  have h := C8_string_utf8 [0, 0, 0, 1, 255, 0, 0, 0] [.vU8 255] 8 []
    (by simp [unpack, unpackElems, unpackPad, read32, padding, Except.bind, Except.map])
    (by decide)
  simpa [bytesOf] using h

/-- C9: every variable-length encode (sequence or string) ends in its
0-to-3 padding bytes all equal to zero, while the decode-side padding loop
consumes its bytes and returns the remaining stream without inspecting
their values, as the concrete decode of a stream padded with 9s shows. -/
theorem C9_padding (vs : List XdrVal) (bs : List Nat) (cnt : Nat) (input : List Nat)
    (hcnt : cnt ≤ input.length) :
    (pack (.vSeq vs)).1 =
      be32 (vs.length % 2 ^ 32) ++ (packList vs).1 ++
        List.replicate (padding (4 + (packList vs).2)) 0 ∧
    padding (4 + (packList vs).2) ≤ 3 ∧
    (pack (.vStr bs)).1 =
      be32 (bs.length % 2 ^ 32) ++ bs.map (· % 256) ++
        List.replicate (padding (4 + bs.length)) 0 ∧
    unpackPad cnt input = .ok (cnt, input.drop cnt) ∧
    unpack (.tSeq .tU8) [0, 0, 0, 1, 7, 9, 9, 9] = .ok (.vSeq [.vU8 7], 8, []) := by
  refine ⟨rfl, ?_, rfl, unpackPad_drop cnt input hcnt, ?_⟩
  · have := padding_lt (4 + (packList vs).2); omega
  · simp [unpack, unpackElems, unpackPad, read32, padding, Except.bind, Except.map]

/-- C9, witness: three bytes of 9s are consumed as padding, and the padded
stream decodes successfully. -/
theorem C9_padding_witness :
    unpackPad 3 [9, 9, 9] = .ok (3, []) ∧
    unpack (.tSeq .tU8) [0, 0, 0, 1, 7, 9, 9, 9] = .ok (.vSeq [.vU8 7], 8, []) :=
  ⟨((C9_padding [] [] 3 [9, 9, 9] (by decide)).2.2.2.1),
   ((C9_padding [] [] 3 [9, 9, 9] (by decide)).2.2.2.2)⟩

/-- C10: packing a boxed value writes the same bytes and returns the same
count as packing the value directly, and unpacking a box is exactly the
payload unpack with its result boxed at the same consumed count. -/
theorem C10_box (v : XdrVal) (t : Ty) (input : List Nat) :
    pack (.vBox v) = pack v ∧
    unpack (.tBox t) input =
      (unpack t input).map fun r => (.vBox r.1, r.2.1, r.2.2) := by
  refine ⟨rfl, ?_⟩
  simp [unpack]

end Xdr
